import Mathlib

/-!
Shallow embedding of `src/Collection.ts` from Discord-JS-User/Collection.

The class `Collection<V> extends Map<K, V>` is modelled as a structure holding
the `keyName` field together with the insertion-ordered entry list of the
underlying JavaScript `Map`.  The JavaScript `Map` primitives (`set`, `get`,
`delete`, construction from an iterable of pairs) are modelled as association
list operations with the standard ordered-map semantics: `set` on an existing
key replaces the value in place, a fresh key is appended at the end.

Dynamic property access `v[keyName]` (used by the constructor, `push` and
`remove`) is modelled by an explicit read function `read : V → String → K`.

Promises are modelled by a settlement time (a natural number tick) together
with a settlement outcome (fulfilled with a value, or rejected with a reason
string).  `Promise.any` resolves with the first input promise to fulfill,
earlier submission winning ties; `Promise.allSettled` makes the settlement
callbacks run in settlement order, ties broken by submission order, which is
modelled by a stable insertion sort on settlement times.
-/

set_option linter.unusedVariables false

/-- The key types for Collections: a JS string or number. -/
inductive K where
  | str : String → K
  | num : Int → K
deriving DecidableEq

/-- JS `Map.prototype.set`: replace the value at an existing key in place
(keeping its position), otherwise append the new pair at the end. -/
def mapSet {V : Type} : List (K × V) → K → V → List (K × V)
  | [], k, v => [(k, v)]
  | e :: es, k, v => if e.1 = k then (k, v) :: es else e :: mapSet es k v

/-- JS `Map.prototype.delete`: remove the entry with the given key
(a JS map holds at most one). Deleting an absent key is a no-op. -/
def mapDelete {V : Type} : List (K × V) → K → List (K × V)
  | [], _ => []
  | e :: es, k => if e.1 = k then es else e :: mapDelete es k

/-- JS `Map.prototype.get`: the value stored at a key, `undefined` if absent. -/
def mapGet {V : Type} : List (K × V) → K → Option V
  | [], _ => none
  | e :: es, k => if e.1 = k then some e.2 else mapGet es k

/-- `new Map(pairs)`: insert the pairs in order with `set` semantics
(last write wins on duplicate keys). -/
def mapFromPairs {V : Type} (pairs : List (K × V)) : List (K × V) :=
  pairs.foldl (fun es p => mapSet es p.1 p.2) []

/-- The keys of an entry list, in order. -/
def keysOf {V : Type} (es : List (K × V)) : List K := es.map Prod.fst

/-- The settlement outcome of a JS promise: fulfilled with a value, or
rejected with a reason. -/
inductive Settled (α : Type) where
  | fulfilled : α → Settled α
  | rejected : String → Settled α
deriving DecidableEq

/-- A JS promise, modelled by the tick at which it settles together with its
settlement outcome. -/
structure JsPromise (α : Type) where
  time : Nat
  outcome : Settled α
deriving DecidableEq

/-- `p.then(f)` where the callback `f` may return a value or throw:
runs at `p`'s settlement time on fulfillment; a rejection passes through. -/
def JsPromise.thenMap {α β : Type} (p : JsPromise α) (f : α → Settled β) : JsPromise β :=
  { time := p.time
    outcome :=
      match p.outcome with
      | Settled.fulfilled a => f a
      | Settled.rejected r => Settled.rejected r }

/-- The winning fulfillment of `Promise.any`: the fulfilled promise with the
least settlement time, earlier submission (list position) winning ties;
`none` when every promise rejects. -/
def firstFulfilled {α : Type} : List (JsPromise α) → Option (Nat × α)
  | [] => none
  | p :: ps =>
    match p.outcome with
    | Settled.fulfilled a =>
      match firstFulfilled ps with
      | some q => if q.1 < p.time then some q else some (p.time, a)
      | none => some (p.time, a)
    | Settled.rejected _ => firstFulfilled ps

/-- Stable insertion by settlement time: the new element goes after all
elements with an earlier-or-equal time. -/
def insertByTime {β : Type} (x : Nat × β) : List (Nat × β) → List (Nat × β)
  | [] => [x]
  | y :: ys => if y.1 ≤ x.1 then y :: insertByTime x ys else x :: y :: ys

/-- Settlement order of a batch of tagged promises: a stable sort on the
settlement times, submission order breaking ties.  This is the order in which
the `then` callbacks of a `Promise.allSettled` batch run. -/
def settleSort {β : Type} (xs : List (Nat × β)) : List (Nat × β) :=
  xs.foldl (fun acc x => insertByTime x acc) []

/-- A JS argument that is expected to be a function: either an actual
function, or any non-callable value. -/
inductive JsVal (α : Type) where
  | func : α → JsVal α
  | notFunc : JsVal α

/-- The `TypeError` message thrown by the callable check. -/
def typeErrorMsg : String := "TypeError: fn is not a function"

/-- `Collection<V> extends Map<K, V>`: the `keyName` field plus the
insertion-ordered entries of the underlying map. -/
structure Collection (V : Type) where
  keyName : String
  entries : List (K × V)
deriving DecidableEq

namespace Collection

/-- `Map.prototype.size`. -/
def size {V : Type} (c : Collection V) : Nat := c.entries.length

/-- The constructor in array mode: `values` is an array of raw items, each
item's key is derived via `item[key]` and the pairs populate the map in
order. -/
def create {V : Type} (read : V → String → K) (values : List V) (key : String) :
    Collection V :=
  { keyName := key, entries := mapFromPairs (values.map (fun v => (read v key, v))) }

/-- The constructor in pair mode: a non-array iterable of already-formed
key/value pairs is passed to the `Map` constructor directly. -/
def createFromPairs {V : Type} (pairs : List (K × V)) (key : String) : Collection V :=
  { keyName := key, entries := mapFromPairs pairs }

/-- `toJSON()`: the values as a plain array, in current iteration order. -/
def toJSON {V : Type} (c : Collection V) : List V := c.entries.map Prod.snd

/-- `push(...items)`: for each item, `this.set(item[this.keyName], item)`. -/
def push {V : Type} (c : Collection V) (read : V → String → K) (items : List V) :
    Collection V :=
  { keyName := c.keyName
    entries := items.foldl (fun es item => mapSet es (read item c.keyName) item) c.entries }

/-- `remove(...items)`: for each item, `this.delete(item[this.keyName])`. -/
def remove {V : Type} (c : Collection V) (read : V → String → K) (items : List V) :
    Collection V :=
  { keyName := c.keyName
    entries := items.foldl (fun es item => mapDelete es (read item c.keyName)) c.entries }

/-- `find(fn)`: the first value, in insertion order, for which
`fn(value, key, collection)` is truthy, else `undefined`. -/
def find {V : Type} (c : Collection V) (fn : V → K → Collection V → Bool) : Option V :=
  (c.entries.find? (fun e => fn e.2 e.1 c)).map Prod.snd

/-- `findAsync(fn)`: start `fn(value, key, collection)` for every entry, then
`Promise.any` over the derived promises (`then` turns a falsy result into a
rejection), with `.catch(() => undefined)` at the end. -/
def findAsync {V : Type} (c : Collection V) (fn : V → K → Collection V → JsPromise Bool) :
    Option V :=
  let ps := c.entries.map (fun e =>
    (fn e.2 e.1 c).thenMap (fun r =>
      if r then Settled.fulfilled e.2 else Settled.rejected "e"))
  (firstFulfilled ps).map Prod.snd

/-- `filter(fn)`: a new collection with the same `keyName`, `set` with each
passing entry in insertion order. -/
def filter {V : Type} (c : Collection V) (fn : V → K → Collection V → Bool) :
    Collection V :=
  { keyName := c.keyName
    entries := c.entries.foldl
      (fun es e => if fn e.2 e.1 c then mapSet es e.1 e.2 else es) [] }

/-- `filterAsync(fn)`: start `fn` for every entry, wait for all to settle;
each invocation that fulfills truthy sets its entry into the result, the
`then` callbacks running in settlement order. -/
def filterAsync {V : Type} (c : Collection V) (fn : V → K → Collection V → JsPromise Bool) :
    Collection V :=
  let tagged := c.entries.map (fun e => ((fn e.2 e.1 c).time, (e, (fn e.2 e.1 c).outcome)))
  { keyName := c.keyName
    entries := (settleSort tagged).foldl
      (fun es x =>
        match x.2.2 with
        | Settled.fulfilled true => mapSet es x.2.1.1 x.2.1.2
        | _ => es) [] }

/-- `map(fn)`: a new collection with the same `keyName`, `set` with each key
and its transformed value in insertion order. -/
def map {V T : Type} (c : Collection V) (fn : V → K → Collection V → T) : Collection T :=
  { keyName := c.keyName
    entries := c.entries.foldl (fun es e => mapSet es e.1 (fn e.2 e.1 c)) [] }

/-- `mapAsync(fn)`: start `fn` for every entry, wait for all to settle; each
fulfilled invocation sets its resolved value under the original key, in
settlement order; a rejecting invocation is dropped. -/
def mapAsync {V T : Type} (c : Collection V) (fn : V → K → Collection V → JsPromise T) :
    Collection T :=
  let tagged := c.entries.map (fun e => ((fn e.2 e.1 c).time, (e.1, (fn e.2 e.1 c).outcome)))
  { keyName := c.keyName
    entries := (settleSort tagged).foldl
      (fun es x =>
        match x.2.2 with
        | Settled.fulfilled v => mapSet es x.2.1 v
        | Settled.rejected _ => es) [] }

/-- `randomItem()`: `[...this.values()][Math.floor(Math.random() * this.size)]`,
with `Math.random()` modelled by a rational `r`; an out-of-range index reads
as `undefined`. -/
def randomItem {V : Type} (c : Collection V) (r : ℚ) : Option V :=
  c.toJSON[Int.toNat ⌊r * (c.size : ℚ)⌋]?

/-- `reverse()`: snapshot the entries, reverse them, `clear()`, then re-`set`
each pair in the reversed order; returns the mutated collection. -/
def reverse {V : Type} (c : Collection V) : Collection V :=
  { keyName := c.keyName, entries := mapFromPairs c.entries.reverse }

/-- `sweep(fn)`: iterate the live map, deleting each entry for which `fn` is
truthy (the predicate sees the mutating collection); return
`previousSize - this.size`. -/
def sweep {V : Type} (c : Collection V) (fn : V → K → Collection V → Bool) :
    Collection V × Nat :=
  let previousSize := c.size
  let final := c.entries.foldl
    (fun cur e =>
      if fn e.2 e.1 cur then
        { keyName := cur.keyName, entries := mapDelete cur.entries e.1 }
      else cur) c
  (final, previousSize - final.size)

/-- `sweepAsync(fn)`: start `fn` for every entry (all see the original
collection), wait for all to settle; each truthy fulfillment deletes its key
from the live collection, in settlement order; return
`previousSize - this.size`. -/
def sweepAsync {V : Type} (c : Collection V) (fn : V → K → Collection V → JsPromise Bool) :
    Collection V × Nat :=
  let previousSize := c.size
  let tagged := c.entries.map (fun e => ((fn e.2 e.1 c).time, (e.1, (fn e.2 e.1 c).outcome)))
  let final := (settleSort tagged).foldl
    (fun cur x =>
      match x.2.2 with
      | Settled.fulfilled true =>
        { keyName := cur.keyName, entries := mapDelete cur.entries x.2.1 }
      | _ => cur) c
  (final, previousSize - final.size)

/-- Calling `find` with a possibly non-callable argument: the check
`typeof fn !== "function"` throws a `TypeError` synchronously, before any
entry is visited. -/
def findChecked {V : Type} (c : Collection V)
    (fnv : JsVal (V → K → Collection V → Bool)) : Except String (Option V) :=
  match fnv with
  | JsVal.notFunc => Except.error typeErrorMsg
  | JsVal.func fn => Except.ok (c.find fn)

/-- Calling `filter` with a possibly non-callable argument. -/
def filterChecked {V : Type} (c : Collection V)
    (fnv : JsVal (V → K → Collection V → Bool)) : Except String (Collection V) :=
  match fnv with
  | JsVal.notFunc => Except.error typeErrorMsg
  | JsVal.func fn => Except.ok (c.filter fn)

/-- Calling `map` with a possibly non-callable argument. -/
def mapChecked {V T : Type} (c : Collection V)
    (fnv : JsVal (V → K → Collection V → T)) : Except String (Collection T) :=
  match fnv with
  | JsVal.notFunc => Except.error typeErrorMsg
  | JsVal.func fn => Except.ok (c.map fn)

/-- Calling `sweep` with a possibly non-callable argument. -/
def sweepChecked {V : Type} (c : Collection V)
    (fnv : JsVal (V → K → Collection V → Bool)) : Except String (Collection V × Nat) :=
  match fnv with
  | JsVal.notFunc => Except.error typeErrorMsg
  | JsVal.func fn => Except.ok (c.sweep fn)

/-- Calling the `async` method `findAsync`: per JS semantics an `async`
function never throws synchronously (the outer `Except` is the synchronous
exception channel and is always `ok`); a `throw` in its body, such as the
callable check, surfaces as a rejection of the returned promise. -/
def findAsyncChecked {V : Type} (c : Collection V)
    (fnv : JsVal (V → K → Collection V → JsPromise Bool)) :
    Except String (Settled (Option V)) :=
  Except.ok
    (match fnv with
     | JsVal.notFunc => Settled.rejected typeErrorMsg
     | JsVal.func fn => Settled.fulfilled (c.findAsync fn))

/-- Calling the `async` method `filterAsync` (see `findAsyncChecked`). -/
def filterAsyncChecked {V : Type} (c : Collection V)
    (fnv : JsVal (V → K → Collection V → JsPromise Bool)) :
    Except String (Settled (Collection V)) :=
  Except.ok
    (match fnv with
     | JsVal.notFunc => Settled.rejected typeErrorMsg
     | JsVal.func fn => Settled.fulfilled (c.filterAsync fn))

/-- Calling the `async` method `mapAsync` (see `findAsyncChecked`). -/
def mapAsyncChecked {V T : Type} (c : Collection V)
    (fnv : JsVal (V → K → Collection V → JsPromise T)) :
    Except String (Settled (Collection T)) :=
  Except.ok
    (match fnv with
     | JsVal.notFunc => Settled.rejected typeErrorMsg
     | JsVal.func fn => Settled.fulfilled (c.mapAsync fn))

/-- Calling the `async` method `sweepAsync` (see `findAsyncChecked`). -/
def sweepAsyncChecked {V : Type} (c : Collection V)
    (fnv : JsVal (V → K → Collection V → JsPromise Bool)) :
    Except String (Settled (Collection V × Nat)) :=
  Except.ok
    (match fnv with
     | JsVal.notFunc => Settled.rejected typeErrorMsg
     | JsVal.func fn => Settled.fulfilled (c.sweepAsync fn))

end Collection

/-! ### Lemmas about the JS Map primitives -/

theorem keysOf_nil {V : Type} : keysOf ([] : List (K × V)) = [] := rfl

theorem keysOf_cons {V : Type} (e : K × V) (es : List (K × V)) :
    keysOf (e :: es) = e.1 :: keysOf es := rfl

theorem length_keysOf {V : Type} (es : List (K × V)) :
    (keysOf es).length = es.length := List.length_map es Prod.fst

theorem mapGet_mapSet {V : Type} (es : List (K × V)) (k k' : K) (v : V) :
    mapGet (mapSet es k v) k' = if k' = k then some v else mapGet es k' := by
  induction es with
  | nil =>
    by_cases h : k' = k
    · simp [mapSet, mapGet, h]
    · simp [mapSet, mapGet, h, Ne.symm h]
  | cons e es ih =>
    by_cases hek : e.1 = k
    · by_cases h : k' = k
      · simp [mapSet, mapGet, hek, h]
      · simp [mapSet, mapGet, hek, h, Ne.symm h]
    · by_cases hek' : e.1 = k'
      · have hk : ¬(k' = k) := fun hh => hek (hek'.trans hh)
        simp [mapSet, mapGet, hek, hek', hk]
      · simp [mapSet, mapGet, hek, hek', ih]

theorem mapGet_eq_none_iff {V : Type} {es : List (K × V)} {k : K} :
    mapGet es k = none ↔ ∀ e ∈ es, e.1 ≠ k := by
  induction es with
  | nil => simp [mapGet]
  | cons e es ih =>
    by_cases h : e.1 = k <;> simp [mapGet, h, ih]

theorem keysOf_mapSet {V : Type} (es : List (K × V)) (k : K) (v : V) :
    keysOf (mapSet es k v) =
      if k ∈ keysOf es then keysOf es else keysOf es ++ [k] := by
  induction es with
  | nil => simp [mapSet, keysOf]
  | cons e es ih =>
    by_cases h : e.1 = k
    · simp [mapSet, keysOf_cons, h, List.mem_cons]
    · by_cases hm : k ∈ keysOf es <;>
        simp [mapSet, keysOf_cons, h, hm, ih, List.mem_cons, Ne.symm h]

theorem nodup_keysOf_mapSet {V : Type} {es : List (K × V)} (k : K) (v : V)
    (h : (keysOf es).Nodup) : (keysOf (mapSet es k v)).Nodup := by
  rw [keysOf_mapSet]
  by_cases hm : k ∈ keysOf es
  · simpa [hm] using h
  · rw [if_neg hm, List.nodup_append]
    refine ⟨h, List.nodup_singleton k, ?_⟩
    intro a ha hak
    rw [List.mem_singleton] at hak
    exact hm (hak ▸ ha)

theorem mapSet_of_fresh {V : Type} {es : List (K × V)} {k : K} (v : V)
    (h : ∀ e ∈ es, e.1 ≠ k) : mapSet es k v = es ++ [(k, v)] := by
  induction es with
  | nil => simp [mapSet]
  | cons e es ih =>
    have he : e.1 ≠ k := h e (by simp)
    simp only [mapSet, he, if_false, List.cons_append, List.cons.injEq, true_and]
    exact ih (fun x hx => h x (by simp [hx]))

theorem mapDelete_append_fresh {V : Type} {es : List (K × V)} {k : K} (v : V)
    (h : ∀ e ∈ es, e.1 ≠ k) : mapDelete (es ++ [(k, v)]) k = es := by
  induction es with
  | nil => simp [mapDelete]
  | cons e es ih =>
    have he : e.1 ≠ k := h e (by simp)
    simp only [List.cons_append, mapDelete, he, if_false, List.cons.injEq, true_and]
    exact ih (fun x hx => h x (by simp [hx]))

theorem mapDelete_eq_filter_of_nodup {V : Type} {es : List (K × V)} {k : K}
    (h : (keysOf es).Nodup) :
    mapDelete es k = es.filter (fun e => !decide (e.1 = k)) := by
  induction es with
  | nil => simp [mapDelete]
  | cons e es ih =>
    rw [keysOf_cons, List.nodup_cons] at h
    by_cases hek : e.1 = k
    · have : ∀ x ∈ es, ¬(x.1 = k) := by
        intro x hx hxk
        have hmem : x.1 ∈ keysOf es := List.mem_map_of_mem Prod.fst hx
        rw [hxk, ← hek] at hmem
        exact h.1 hmem
      rw [mapDelete]
      simp only [hek, if_true, List.filter_cons, decide_eq_true_eq]
      rw [if_neg (by simp [hek])]
      exact (List.filter_eq_self.mpr (fun x hx => by simp [this x hx])).symm
    · rw [mapDelete]
      simp only [hek, if_false, List.filter_cons]
      rw [if_pos (by simp [hek]), ih h.2]

/-- Entries with pairwise distinct keys are determined by their key. -/
theorem eq_of_keysOf_nodup {V : Type} {es : List (K × V)}
    (h : (keysOf es).Nodup) :
    ∀ e₁ ∈ es, ∀ e₂ ∈ es, e₁.1 = e₂.1 → e₁ = e₂ := by
  induction es with
  | nil => simp
  | cons e es ih =>
    rw [keysOf_cons, List.nodup_cons] at h
    intro e₁ h₁ e₂ h₂ hk
    rcases List.mem_cons.mp h₁ with h₁e | h₁t
    · rcases List.mem_cons.mp h₂ with h₂e | h₂t
      · rw [h₁e, h₂e]
      · exfalso
        apply h.1
        have hmem : e₂.1 ∈ keysOf es := List.mem_map_of_mem Prod.fst h₂t
        rw [← h₁e, hk]
        exact hmem
    · rcases List.mem_cons.mp h₂ with h₂e | h₂t
      · exfalso
        apply h.1
        have hmem : e₁.1 ∈ keysOf es := List.mem_map_of_mem Prod.fst h₁t
        rw [← h₂e, ← hk]
        exact hmem
      · exact ih h.2 e₁ h₁t e₂ h₂t hk

/-! ### Lemmas about `new Map(pairs)` (`mapFromPairs`) -/

theorem foldl_mapSet_keys {V : Type} (l : List (K × V)) :
    ∀ (acc : List (K × V)), (keysOf acc).Nodup →
      (keysOf (l.foldl (fun es p => mapSet es p.1 p.2) acc)).Nodup ∧
        (keysOf (l.foldl (fun es p => mapSet es p.1 p.2) acc)).toFinset
          = (keysOf acc).toFinset ∪ (l.map Prod.fst).toFinset := by
  induction l with
  | nil => intro acc hacc; simpa using hacc
  | cons p l ih =>
    intro acc hacc
    have hstep := ih (mapSet acc p.1 p.2) (nodup_keysOf_mapSet p.1 p.2 hacc)
    refine ⟨hstep.1, ?_⟩
    have hins : (keysOf (mapSet acc p.1 p.2)).toFinset
        = insert p.1 (keysOf acc).toFinset := by
      rw [keysOf_mapSet]
      by_cases hm : p.1 ∈ keysOf acc
      · rw [if_pos hm, (Finset.insert_eq_self).mpr (List.mem_toFinset.mpr hm)]
      · rw [if_neg hm, List.toFinset_append]
        ext x
        simp [or_comm]
    rw [List.foldl_cons, hstep.2, hins, List.map_cons, List.toFinset_cons]
    ext x
    simp

theorem size_mapFromPairs {V : Type} (pairs : List (K × V)) :
    (mapFromPairs pairs).length = (pairs.map Prod.fst).toFinset.card := by
  have h := foldl_mapSet_keys pairs [] (by simp [keysOf])
  rw [mapFromPairs, ← length_keysOf,
    ← List.toFinset_card_of_nodup h.1, h.2]
  simp [keysOf]

theorem nodup_keysOf_mapFromPairs {V : Type} (pairs : List (K × V)) :
    (keysOf (mapFromPairs pairs)).Nodup :=
  (foldl_mapSet_keys pairs [] (by simp [keysOf])).1

theorem foldl_mapSet_get {V : Type} (l : List (K × V)) :
    ∀ (acc : List (K × V)) (k : K),
      mapGet (l.foldl (fun es p => mapSet es p.1 p.2) acc) k
        = Option.or ((l.reverse.find? (fun p => decide (p.1 = k))).map Prod.snd)
            (mapGet acc k) := by
  induction l with
  | nil => intro acc k; simp
  | cons p l ih =>
    intro acc k
    rw [List.foldl_cons, ih, List.reverse_cons, List.find?_append]
    cases hl : l.reverse.find? (fun p => decide (p.1 = k)) with
    | some q => simp [mapGet_mapSet]
    | none =>
      by_cases hp : p.1 = k
      · simp [hp, mapGet_mapSet, List.find?_cons_of_pos, eq_comm]
      · rw [List.find?_cons_of_neg _ (by simp [hp])]
        simp [mapGet_mapSet, Ne.symm hp]

theorem mapGet_mapFromPairs {V : Type} (pairs : List (K × V)) (k : K) :
    mapGet (mapFromPairs pairs) k
      = (pairs.reverse.find? (fun p => decide (p.1 = k))).map Prod.snd := by
  rw [mapFromPairs, foldl_mapSet_get]
  simp [mapGet]

theorem mapFromPairs_of_nodup {V : Type} {pairs : List (K × V)}
    (h : (keysOf pairs).Nodup) : mapFromPairs pairs = pairs := by
  suffices haux : ∀ (l acc : List (K × V)), (keysOf acc ++ keysOf l).Nodup →
      l.foldl (fun es p => mapSet es p.1 p.2) acc = acc ++ l by
    simpa using haux pairs [] (by simpa [keysOf] using h)
  intro l
  induction l with
  | nil => intro acc hacc; simp
  | cons p l ih =>
    intro acc hacc
    have hfresh : ∀ e ∈ acc, e.1 ≠ p.1 := by
      intro e he hek
      rcases List.nodup_append.mp hacc with ⟨-, -, hdisj⟩
      have hmem : e.1 ∈ keysOf acc := List.mem_map_of_mem Prod.fst he
      exact hdisj hmem (by simp [keysOf_cons, hek])
    have hacc' : (keysOf (acc ++ [(p.1, p.2)]) ++ keysOf l).Nodup := by
      simpa [keysOf, List.append_assoc] using hacc
    rw [List.foldl_cons, mapSet_of_fresh p.2 hfresh, ih _ hacc', List.append_assoc,
      List.singleton_append]

/-! ### C5 and C10 -/

/-- C5: construction from raw items derives each key via the key field and
construction from pairs uses them directly; in both modes the size equals the
number of distinct keys supplied, and on duplicate keys the last write wins
(the stored value at `k` is the last supplied value with key `k`). -/
theorem c5_construction {V : Type} (read : V → String → K) (values : List V)
    (pairs : List (K × V)) (key : String) :
    (Collection.create read values key).size
        = (values.map (fun v => read v key)).toFinset.card
      ∧ (∀ k, mapGet (Collection.create read values key).entries k
          = values.reverse.find? (fun v => decide (read v key = k)))
      ∧ (Collection.createFromPairs pairs key).size
        = (pairs.map Prod.fst).toFinset.card
      ∧ (∀ k, mapGet (Collection.createFromPairs pairs key).entries k
          = (pairs.reverse.find? (fun p => decide (p.1 = k))).map Prod.snd) := by
  refine ⟨?_, ?_, ?_, ?_⟩
  · rw [Collection.size, Collection.create, size_mapFromPairs, List.map_map]
    rfl
  · intro k
    simp only [Collection.create]
    rw [mapGet_mapFromPairs, ← List.map_reverse, List.find?_map, Option.map_map]
    exact congrFun Option.map_id _
  · rw [Collection.size, Collection.createFromPairs, size_mapFromPairs]
  · intro k
    simp only [Collection.createFromPairs]
    rw [mapGet_mapFromPairs]

/-- C10: `randomItem` on an empty collection returns `undefined` rather than
throwing; the empty-collection branch reads index 0 of an empty array. -/
theorem c10_randomItem_empty {V : Type} (c : Collection V) (r : ℚ)
    (h : c.size = 0) : c.randomItem r = none := by
  rw [Collection.size] at h
  have he : c.entries = [] := List.length_eq_zero.mp h
  simp [Collection.randomItem, Collection.toJSON, he]

/-- Witness for C10 at the concrete empty collection and `Math.random() = 1/2`. -/
theorem c10_witness :
    (Collection.mk "id" ([] : List (K × Nat))).size = 0 ∧
      (Collection.mk "id" ([] : List (K × Nat))).randomItem (1 / 2 : ℚ) = none :=
  ⟨rfl, c10_randomItem_empty _ _ rfl⟩

/-! ### Lemmas about the `Promise.any` winner (`firstFulfilled`) -/

theorem thenMap_time {α β : Type} (p : JsPromise α) (f : α → Settled β) :
    (p.thenMap f).time = p.time := rfl

/-- The outcome of the derived promise built inside `findAsync`:
`fn(...).then(r => r ? value : throw "e")`. -/
theorem findAsync_promise_outcome {V : Type} (c : Collection V)
    (fn : V → K → Collection V → JsPromise Bool) (e : K × V) :
    ((fn e.2 e.1 c).thenMap
        (fun r => if r then Settled.fulfilled e.2 else Settled.rejected "e")).outcome
      = match (fn e.2 e.1 c).outcome with
        | Settled.fulfilled true => Settled.fulfilled e.2
        | Settled.fulfilled false => Settled.rejected "e"
        | Settled.rejected r => Settled.rejected r := by
  rw [JsPromise.thenMap]
  cases (fn e.2 e.1 c).outcome with
  | fulfilled b => cases b <;> rfl
  | rejected r => rfl

theorem firstFulfilled_eq_none {α : Type} :
    ∀ (ps : List (JsPromise α)),
      (∀ p ∈ ps, ∀ (a : α), p.outcome ≠ Settled.fulfilled a) →
        firstFulfilled ps = none := by
  intro ps
  induction ps with
  | nil => intro h; rfl
  | cons x ps ih =>
    intro h
    cases hx : x.outcome with
    | fulfilled b => exact absurd hx (h x (List.mem_cons_self x ps) b)
    | rejected r =>
      rw [firstFulfilled]
      simp only [hx]
      exact ih (fun p hp => h p (List.mem_cons_of_mem x hp))

theorem firstFulfilled_exists_of_mem {α : Type} :
    ∀ (ps : List (JsPromise α)) (p : JsPromise α), p ∈ ps →
      ∀ (a : α), p.outcome = Settled.fulfilled a →
        ∃ q, firstFulfilled ps = some q := by
  intro ps
  induction ps with
  | nil => intro p hp; exact absurd hp (List.not_mem_nil p)
  | cons x ps ih =>
    intro p hp a ha
    cases hx : x.outcome with
    | fulfilled b =>
      cases hff : firstFulfilled ps with
      | some q =>
        by_cases hlt : q.1 < x.time
        · exact ⟨q, by rw [firstFulfilled]; simp only [hx, hff]; rw [if_pos hlt]⟩
        · exact ⟨(x.time, b), by rw [firstFulfilled]; simp only [hx, hff]; rw [if_neg hlt]⟩
      | none => exact ⟨(x.time, b), by rw [firstFulfilled]; simp only [hx, hff]⟩
    | rejected r =>
      rcases List.mem_cons.mp hp with rfl | hp'
      · rw [hx] at ha; exact absurd ha (by simp)
      · obtain ⟨q, hq⟩ := ih p hp' a ha
        exact ⟨q, by rw [firstFulfilled]; simp only [hx, hq]⟩

theorem firstFulfilled_spec_mem {α : Type} :
    ∀ (ps : List (JsPromise α)) (t : Nat) (a : α),
      firstFulfilled ps = some (t, a) →
        ∃ p ∈ ps, p.outcome = Settled.fulfilled a ∧ p.time = t := by
  intro ps
  induction ps with
  | nil => intro t a h; exact absurd h (by rw [firstFulfilled]; simp)
  | cons x ps ih =>
    intro t a h
    cases hx : x.outcome with
    | rejected r =>
      rw [firstFulfilled] at h
      simp only [hx] at h
      obtain ⟨p, hp, ho, htm⟩ := ih t a h
      exact ⟨p, List.mem_cons_of_mem x hp, ho, htm⟩
    | fulfilled b =>
      rw [firstFulfilled] at h
      simp only [hx] at h
      cases hff : firstFulfilled ps with
      | none =>
        simp only [hff] at h
        simp only [Option.some.injEq, Prod.mk.injEq] at h
        exact ⟨x, List.mem_cons_self x ps, by rw [hx, h.2], h.1⟩
      | some q =>
        simp only [hff] at h
        by_cases hlt : q.1 < x.time
        · rw [if_pos hlt] at h
          obtain ⟨p, hp, ho, htm⟩ := ih t a (by rw [hff, h])
          exact ⟨p, List.mem_cons_of_mem x hp, ho, htm⟩
        · rw [if_neg hlt] at h
          simp only [Option.some.injEq, Prod.mk.injEq] at h
          exact ⟨x, List.mem_cons_self x ps, by rw [hx, h.2], h.1⟩

theorem firstFulfilled_min {α : Type} :
    ∀ (ps : List (JsPromise α)) (t : Nat) (a : α),
      firstFulfilled ps = some (t, a) →
        ∀ p ∈ ps, ∀ (b : α), p.outcome = Settled.fulfilled b → t ≤ p.time := by
  intro ps
  induction ps with
  | nil => intro t a h p hp; exact absurd hp (List.not_mem_nil p)
  | cons x ps ih =>
    intro t a h p hp b hb
    cases hx : x.outcome with
    | rejected r =>
      rw [firstFulfilled] at h
      simp only [hx] at h
      rcases List.mem_cons.mp hp with rfl | hp'
      · rw [hx] at hb; exact absurd hb (by simp)
      · exact ih t a h p hp' b hb
    | fulfilled cc =>
      rw [firstFulfilled] at h
      simp only [hx] at h
      cases hff : firstFulfilled ps with
      | none =>
        simp only [hff] at h
        simp only [Option.some.injEq, Prod.mk.injEq] at h
        rcases List.mem_cons.mp hp with rfl | hp'
        · exact le_of_eq h.1.symm
        · obtain ⟨q, hq⟩ := firstFulfilled_exists_of_mem ps p hp' b hb
          rw [hff] at hq
          exact absurd hq (by simp)
      | some q =>
        simp only [hff] at h
        by_cases hlt : q.1 < x.time
        · rw [if_pos hlt] at h
          simp only [Option.some.injEq] at h
          subst h
          rcases List.mem_cons.mp hp with rfl | hp'
          · exact le_of_lt hlt
          · exact ih t a hff p hp' b hb
        · rw [if_neg hlt] at h
          simp only [Option.some.injEq, Prod.mk.injEq] at h
          rcases List.mem_cons.mp hp with rfl | hp'
          · exact le_of_eq h.1.symm
          · have hq : firstFulfilled ps = some (q.1, q.2) := by rw [hff]
            have hih := ih q.1 q.2 hq p hp' b hb
            have hxq : x.time ≤ q.1 := Nat.le_of_not_lt hlt
            calc t = x.time := h.1.symm
              _ ≤ q.1 := hxq
              _ ≤ p.time := hih

/-! ### C1 and C2 -/

/-- C1: `findAsync` starts the predicate invocation for every entry before
awaiting any of them (the winner may sit at any index; entries that settle
earlier with a falsy result or a rejection do not pre-empt it), and it
resolves with the value of the invocation that settles strictly first with a
truthy result; the outcomes of all other invocations are ignored. -/
theorem c1_findAsync_first_truthy {V : Type} (c : Collection V)
    (fn : V → K → Collection V → JsPromise Bool) (i : Nat)
    (hi : i < c.entries.length)
    (ht : (fn (c.entries[i]).2 (c.entries[i]).1 c).outcome = Settled.fulfilled true)
    (hfirst : ∀ (j : Nat) (hj : j < c.entries.length), j ≠ i →
      (fn (c.entries[j]).2 (c.entries[j]).1 c).outcome = Settled.fulfilled true →
      (fn (c.entries[i]).2 (c.entries[i]).1 c).time
        < (fn (c.entries[j]).2 (c.entries[j]).1 c).time) :
    c.findAsync fn = some (c.entries[i]).2 := by
  have key : firstFulfilled (c.entries.map (fun e =>
      (fn e.2 e.1 c).thenMap
        (fun r => if r then Settled.fulfilled e.2 else Settled.rejected "e")))
      = some ((fn (c.entries[i]).2 (c.entries[i]).1 c).time, (c.entries[i]).2) := by
    have hmem_i : ((fn (c.entries[i]).2 (c.entries[i]).1 c).thenMap
        (fun r => if r then Settled.fulfilled (c.entries[i]).2
                  else Settled.rejected "e"))
        ∈ c.entries.map (fun e =>
          (fn e.2 e.1 c).thenMap
            (fun r => if r then Settled.fulfilled e.2 else Settled.rejected "e")) :=
      List.mem_map_of_mem _ (c.entries.getElem_mem hi)
    have hout_i : ((fn (c.entries[i]).2 (c.entries[i]).1 c).thenMap
        (fun r => if r then Settled.fulfilled (c.entries[i]).2
                  else Settled.rejected "e")).outcome
        = Settled.fulfilled (c.entries[i]).2 := by
      rw [findAsync_promise_outcome c fn (c.entries[i]), ht]
    obtain ⟨q, hq⟩ := firstFulfilled_exists_of_mem _ _ hmem_i _ hout_i
    obtain ⟨p, hp, hpo, hpt⟩ := firstFulfilled_spec_mem _ q.1 q.2 (by rw [hq])
    obtain ⟨j, hj', hpe⟩ := List.mem_iff_getElem.mp hp
    have hj : j < c.entries.length := by
      rw [List.length_map] at hj'
      exact hj'
    rw [List.getElem_map] at hpe
    cases hfn : (fn (c.entries[j]).2 (c.entries[j]).1 c).outcome with
    | fulfilled b =>
      cases b with
      | false =>
        rw [← hpe, findAsync_promise_outcome c fn (c.entries[j]), hfn] at hpo
        exact absurd hpo (by simp)
      | true =>
        have hval : q.2 = (c.entries[j]).2 := by
          rw [← hpe, findAsync_promise_outcome c fn (c.entries[j]), hfn] at hpo
          simp only [Settled.fulfilled.injEq] at hpo
          exact hpo.symm
        have htimej : q.1 = (fn (c.entries[j]).2 (c.entries[j]).1 c).time := by
          rw [← hpt, ← hpe, thenMap_time]
        by_cases hji : j = i
        · subst hji
          have : q = ((fn (c.entries[j]).2 (c.entries[j]).1 c).time,
              (c.entries[j]).2) := Prod.ext htimej hval
          rw [hq, this]
        · exfalso
          have hlt := hfirst j hj hji hfn
          have hmin := firstFulfilled_min _ q.1 q.2 (by rw [hq]) _ hmem_i _ hout_i
          rw [thenMap_time] at hmin
          rw [htimej] at hmin
          exact absurd (lt_of_le_of_lt hmin hlt) (lt_irrefl _)
    | rejected r =>
      rw [← hpe, findAsync_promise_outcome c fn (c.entries[j]), hfn] at hpo
      exact absurd hpo (by simp)
  simp only [Collection.findAsync]
  rw [key]
  rfl

/-- Witness collection for C1: three entries. -/
def cW1 : Collection Nat :=
  Collection.mk "id" [(K.num 1, 10), (K.num 2, 20), (K.num 3, 30)]

/-- Witness predicate for C1: entry 10 settles falsy first (tick 1), entry 20
settles truthy at tick 5, entry 30 rejects immediately. -/
def fnW1 : Nat → K → Collection Nat → JsPromise Bool := fun v _ _ =>
  if v = 10 then JsPromise.mk 1 (Settled.fulfilled false)
  else if v = 20 then JsPromise.mk 5 (Settled.fulfilled true)
  else JsPromise.mk 0 (Settled.rejected "x")

/-- Witness for C1: the truthy invocation in the middle wins even though an
earlier entry settled (falsy) before it and a later one rejected before it. -/
theorem c1_witness : Collection.findAsync cW1 fnW1 = some 20 :=
  c1_findAsync_first_truthy cW1 fnW1 1 (by decide) (by decide) (by decide)

theorem firstFulfilled_none_of_map {V : Type} (c : Collection V)
    (fn : V → K → Collection V → JsPromise Bool)
    (h : ∀ e ∈ c.entries, (fn e.2 e.1 c).outcome ≠ Settled.fulfilled true) :
    firstFulfilled (c.entries.map (fun e =>
      (fn e.2 e.1 c).thenMap
        (fun r => if r then Settled.fulfilled e.2 else Settled.rejected "e")))
      = none := by
  apply firstFulfilled_eq_none
  intro p hp a ha
  obtain ⟨e, he, rfl⟩ := List.mem_map.mp hp
  rw [findAsync_promise_outcome] at ha
  cases hfn : (fn e.2 e.1 c).outcome with
  | fulfilled b =>
    cases b with
    | false => rw [hfn] at ha; exact absurd ha (by simp)
    | true => exact h e he hfn
  | rejected r => rw [hfn] at ha; exact absurd ha (by simp)

/-- C2: when no invocation ever fulfills with a truthy result (every one
resolves falsy or rejects), `findAsync` resolves with `undefined`; the call as
a whole fulfills (rejections of individual invocations are absorbed and never
propagate to the caller). -/
theorem c2_findAsync_all_falsy_or_rejected {V : Type} (c : Collection V)
    (fn : V → K → Collection V → JsPromise Bool)
    (h : ∀ e ∈ c.entries, (fn e.2 e.1 c).outcome ≠ Settled.fulfilled true) :
    c.findAsync fn = none ∧
      Collection.findAsyncChecked c (JsVal.func fn)
        = Except.ok (Settled.fulfilled (none : Option V)) := by
  have hnone : c.findAsync fn = none := by
    simp only [Collection.findAsync]
    rw [firstFulfilled_none_of_map c fn h]
    rfl
  refine ⟨hnone, ?_⟩
  rw [Collection.findAsyncChecked, hnone]

/-- Witness collection for C2: two entries, one rejecting and one falsy. -/
def cW2 : Collection Nat := Collection.mk "id" [(K.num 1, 10), (K.num 2, 20)]

/-- Witness predicate for C2: one invocation rejects, the other resolves
falsy. -/
def fnW2 : Nat → K → Collection Nat → JsPromise Bool := fun v _ _ =>
  if v = 10 then JsPromise.mk 0 (Settled.rejected "boom")
  else JsPromise.mk 3 (Settled.fulfilled false)

/-- Witness for C2. -/
theorem c2_witness :
    Collection.findAsync cW2 fnW2 = none ∧
      Collection.findAsyncChecked cW2 (JsVal.func fnW2)
        = Except.ok (Settled.fulfilled (none : Option Nat)) :=
  c2_findAsync_all_falsy_or_rejected cW2 fnW2 (by decide)

/-! ### C3: the callable check -/

/-- A small concrete collection used by concrete counterexamples. -/
def cEx : Collection Nat := Collection.mk "id" [(K.num 1, 1)]

/-- Counterexample to C3 as stated: calling the `async` method `findAsync`
with a non-callable argument does not raise synchronously — the call
returns normally (`Except.ok`, i.e. a promise) and the `TypeError` is the
rejection of that promise. -/
theorem c3_counterexample :
    Collection.findAsyncChecked cEx (JsVal.notFunc)
        = Except.ok (Settled.rejected typeErrorMsg)
      ∧ (Collection.findAsyncChecked cEx (JsVal.notFunc)).isOk = true :=
  ⟨rfl, rfl⟩

/-- C3 (amended): every operation taking a predicate/transform checks
callability before any entry is visited and before any invocation is
started; the synchronous operations throw the `TypeError` synchronously,
while the four `async` operations surface the same `TypeError` as a
rejection of the returned promise (never as a synchronous throw). -/
theorem c3_callable_check {V T : Type} (c : Collection V) :
    Collection.findChecked c (JsVal.notFunc) = Except.error typeErrorMsg
  ∧ Collection.filterChecked c (JsVal.notFunc) = Except.error typeErrorMsg
  ∧ @Collection.mapChecked V T c (JsVal.notFunc) = Except.error typeErrorMsg
  ∧ Collection.sweepChecked c (JsVal.notFunc) = Except.error typeErrorMsg
  ∧ Collection.findAsyncChecked c (JsVal.notFunc)
      = Except.ok (Settled.rejected typeErrorMsg)
  ∧ Collection.filterAsyncChecked c (JsVal.notFunc)
      = Except.ok (Settled.rejected typeErrorMsg)
  ∧ @Collection.mapAsyncChecked V T c (JsVal.notFunc)
      = Except.ok (Settled.rejected typeErrorMsg)
  ∧ Collection.sweepAsyncChecked c (JsVal.notFunc)
      = Except.ok (Settled.rejected typeErrorMsg) :=
  ⟨rfl, rfl, rfl, rfl, rfl, rfl, rfl, rfl⟩

/-! ### C7: push then remove -/

/-- A concrete field reader for witnesses: a numeric item's key is its own
numeric value. -/
def readNum : Nat → String → K := fun v _ => K.num v

/-- A concrete collection that already contains the key of item `5`. -/
def cEx7 : Collection Nat := Collection.mk "id" [(K.num 5, 5)]

/-- Counterexample to C7 as stated: when the item's key is already present,
`push` overwrites in place (size unchanged) and `remove` then deletes the
pre-existing entry, so the final size is one less than before the push. -/
theorem c7_counterexample :
    ((cEx7.push readNum [5]).remove readNum [5]).size ≠ cEx7.size := by decide

/-- C7 (amended): for an item whose key is not already present, `push`
followed by `remove` of the same item restores the collection exactly — the
size returns to its pre-push value, exactly that key is removed, and every
other entry is untouched. -/
theorem c7_push_remove {V : Type} (c : Collection V) (read : V → String → K)
    (x : V) (h : mapGet c.entries (read x c.keyName) = none) :
    (c.push read [x]).remove read [x] = c := by
  have hfresh : ∀ e ∈ c.entries, e.1 ≠ read x c.keyName := mapGet_eq_none_iff.mp h
  show Collection.mk c.keyName
    (mapDelete (mapSet c.entries (read x c.keyName) x) (read x c.keyName)) = c
  rw [mapSet_of_fresh x hfresh, mapDelete_append_fresh x hfresh]

/-- Witness for C7: pushing a fresh item and removing it restores the
collection. -/
theorem c7_witness :
    mapGet cEx7.entries (readNum 7 cEx7.keyName) = none ∧
      (cEx7.push readNum [7]).remove readNum [7] = cEx7 :=
  ⟨by decide, c7_push_remove cEx7 readNum 7 (by decide)⟩

/-! ### C8: reverse -/

/-- C8: `reverse` re-inserts all entries in reverse of their previous
iteration order (in the model: the mutated collection's entries are the
reversed entry list), and applying it twice restores the original
collection. -/
theorem c8_reverse {V : Type} (c : Collection V)
    (hnd : (keysOf c.entries).Nodup) :
    c.reverse.entries = c.entries.reverse ∧ c.reverse.reverse = c := by
  have h1 : c.reverse.entries = c.entries.reverse := by
    show mapFromPairs c.entries.reverse = c.entries.reverse
    apply mapFromPairs_of_nodup
    show (c.entries.reverse.map Prod.fst).Nodup
    rw [List.map_reverse]
    exact List.nodup_reverse.mpr hnd
  refine ⟨h1, ?_⟩
  show Collection.mk c.keyName (mapFromPairs c.reverse.entries.reverse) = c
  rw [h1, List.reverse_reverse, mapFromPairs_of_nodup hnd]

/-- Witness for C8 on a three-entry collection. -/
theorem c8_witness :
    (keysOf cW1.entries).Nodup ∧
      (cW1.reverse.entries = cW1.entries.reverse ∧ cW1.reverse.reverse = cW1) :=
  ⟨by decide, c8_reverse cW1 (by decide)⟩

/-! ### C9: toJSON round-trip -/

/-- Counterexample to C9 as stated: two raw values with the same derived key
collapse to a single entry (last write wins), so `toJSON` returns fewer
values than were supplied. -/
theorem c9_counterexample :
    Collection.toJSON (Collection.create readNum [5, 5] "id") ≠ [5, 5] := by
  decide

/-- C9 (amended): when the supplied raw values have pairwise distinct derived
keys, `toJSON` on the collection built from them returns exactly those values
in insertion order. -/
theorem c9_toJSON_roundtrip {V : Type} (read : V → String → K) (values : List V)
    (key : String) (hnd : (values.map (fun v => read v key)).Nodup) :
    Collection.toJSON (Collection.create read values key) = values := by
  show (mapFromPairs (values.map (fun v => (read v key, v)))).map Prod.snd = values
  rw [mapFromPairs_of_nodup]
  · rw [List.map_map]
    exact List.map_id values
  · show ((values.map (fun v => (read v key, v))).map Prod.fst).Nodup
    rw [List.map_map]
    exact hnd

/-- Witness for C9 with three distinct keys. -/
theorem c9_witness :
    ([10, 20, 30].map (fun v => readNum v "id")).Nodup ∧
      Collection.toJSON (Collection.create readNum [10, 20, 30] "id")
        = [10, 20, 30] :=
  ⟨by decide, c9_toJSON_roundtrip readNum [10, 20, 30] "id" (by decide)⟩

/-! ### C6: sweep -/

theorem collection_ext {V : Type} {c₁ c₂ : Collection V}
    (h1 : c₁.keyName = c₂.keyName) (h2 : c₁.entries = c₂.entries) : c₁ = c₂ := by
  cases c₁
  cases c₂
  cases h1
  cases h2
  rfl

theorem sweep_fold_keyName {V : Type} (fn : V → K → Collection V → Bool) :
    ∀ (todo : List (K × V)) (cur : Collection V),
      (todo.foldl
        (fun cur e =>
          if fn e.2 e.1 cur then
            { keyName := cur.keyName, entries := mapDelete cur.entries e.1 }
          else cur) cur).keyName = cur.keyName := by
  intro todo
  induction todo with
  | nil => intro cur; rfl
  | cons e todo ih =>
    intro cur
    rw [List.foldl_cons]
    by_cases hpe : fn e.2 e.1 cur = true
    · rw [if_pos hpe, ih]
    · rw [if_neg hpe, ih]

theorem sweep_fold_filter {V : Type} (p : V → K → Bool) :
    ∀ (todo : List (K × V)) (cur : Collection V),
      (keysOf cur.entries).Nodup →
      (todo.foldl
          (fun cur e =>
            if p e.2 e.1 then
              { keyName := cur.keyName, entries := mapDelete cur.entries e.1 }
            else cur) cur).entries
        = cur.entries.filter
            (fun x => !(todo.any (fun e => p e.2 e.1 && decide (e.1 = x.1)))) := by
  intro todo
  induction todo with
  | nil =>
    intro cur hnd
    simp
  | cons e todo ih =>
    intro cur hnd
    rw [List.foldl_cons]
    by_cases hpe : p e.2 e.1 = true
    · rw [if_pos hpe]
      have hnd' : (keysOf (mapDelete cur.entries e.1)).Nodup := by
        rw [mapDelete_eq_filter_of_nodup hnd]
        exact ((List.filter_sublist cur.entries).map Prod.fst).nodup hnd
      rw [ih (Collection.mk cur.keyName (mapDelete cur.entries e.1)) hnd']
      show (mapDelete cur.entries e.1).filter _ = _
      rw [mapDelete_eq_filter_of_nodup hnd, List.filter_filter]
      apply List.filter_congr
      intro x hx
      rw [List.any_cons, hpe, Bool.true_and, Bool.not_or]
      rw [Bool.and_comm]
      have hdd : (decide (x.1 = e.1)) = (decide (e.1 = x.1)) := by
        simp [eq_comm]
      rw [hdd]
    · rw [if_neg hpe]
      rw [ih cur hnd]
      apply List.filter_congr
      intro x hx
      have hpf : p e.2 e.1 = false := Bool.eq_false_iff.mpr hpe
      rw [List.any_cons, hpf, Bool.false_and, Bool.false_or]

theorem sweep_entries_filter {V : Type} (c : Collection V) (p : V → K → Bool)
    (hnd : (keysOf c.entries).Nodup) :
    (c.sweep (fun v k _ => p v k)).1.entries
      = c.entries.filter (fun e => !(p e.2 e.1)) := by
  have h := sweep_fold_filter p c.entries c hnd
  refine Eq.trans h ?_
  apply List.filter_congr
  intro x hx
  by_cases hpx : p x.2 x.1 = true
  · have hany : c.entries.any (fun e => p e.2 e.1 && decide (e.1 = x.1)) = true :=
      List.any_eq_true.mpr ⟨x, hx, by simp [hpx]⟩
    rw [hany, hpx]
  · have hpf : p x.2 x.1 = false := Bool.eq_false_iff.mpr hpx
    have hany : c.entries.any (fun e => p e.2 e.1 && decide (e.1 = x.1)) = false := by
      rw [List.any_eq_false]
      intro e he hf
      rw [Bool.and_eq_true] at hf
      have he1 : e.1 = x.1 := of_decide_eq_true hf.2
      have hex : e = x := eq_of_keysOf_nodup hnd e he x hx he1
      rw [hex] at hf
      rw [hf.1] at hpf
      exact Bool.noConfusion hpf
    rw [hany, hpf]

/-- C6: `sweep` deletes in place exactly the entries on which the predicate
is truthy and returns `sizeBefore − sizeAfter`; with the constant-true
predicate it empties the collection and returns the original size; with the
constant-false predicate it returns 0 and leaves the collection unchanged. -/
theorem c6_sweep {V : Type} (c : Collection V) (p : V → K → Bool)
    (hnd : (keysOf c.entries).Nodup) :
    ((c.sweep (fun v k _ => p v k)).1.entries
        = c.entries.filter (fun e => !(p e.2 e.1)))
      ∧ (c.sweep (fun v k _ => p v k)).2
          = c.size - (c.sweep (fun v k _ => p v k)).1.size
      ∧ (c.sweep (fun _ _ _ => true)).1.entries = []
      ∧ (c.sweep (fun _ _ _ => true)).2 = c.size
      ∧ (c.sweep (fun _ _ _ => false)).1 = c
      ∧ (c.sweep (fun _ _ _ => false)).2 = 0 := by
  have htrue : (c.sweep (fun _ _ _ => true)).1.entries = [] := by
    have h := sweep_entries_filter c (fun _ _ => true) hnd
    simpa using h
  have hfalseEnt : (c.sweep (fun _ _ _ => false)).1.entries = c.entries := by
    have h := sweep_entries_filter c (fun _ _ => false) hnd
    simpa using h
  have htrueSize : (c.sweep (fun _ _ _ => true)).1.size = 0 := by
    rw [Collection.size, htrue]
    rfl
  have hfalseSize : (c.sweep (fun _ _ _ => false)).1.size = c.size := by
    rw [Collection.size, hfalseEnt]
    rfl
  refine ⟨sweep_entries_filter c p hnd, rfl, htrue, ?_, ?_, ?_⟩
  · show c.size - (c.sweep (fun _ _ _ => true)).1.size = c.size
    rw [htrueSize, Nat.sub_zero]
  · exact collection_ext (sweep_fold_keyName (fun _ _ _ => false) c.entries c) hfalseEnt
  · show c.size - (c.sweep (fun _ _ _ => false)).1.size = 0
    rw [hfalseSize, Nat.sub_self]

/-- Witness for C6: sweeping the values `≥ 20` out of a three-entry
collection. -/
theorem c6_witness :
    (keysOf cW1.entries).Nodup ∧
      (((cW1.sweep (fun v k _ => decide (20 ≤ v))).1.entries
          = cW1.entries.filter (fun e => !(decide (20 ≤ e.2))))
        ∧ (cW1.sweep (fun v k _ => decide (20 ≤ v))).2
            = cW1.size - (cW1.sweep (fun v k _ => decide (20 ≤ v))).1.size
        ∧ (cW1.sweep (fun _ _ _ => true)).1.entries = []
        ∧ (cW1.sweep (fun _ _ _ => true)).2 = cW1.size
        ∧ (cW1.sweep (fun _ _ _ => false)).1 = cW1
        ∧ (cW1.sweep (fun _ _ _ => false)).2 = 0) :=
  ⟨by decide, c6_sweep cW1 (fun v _ => decide (20 ≤ v)) (by decide)⟩

/-! ### C4: synchronous-resolution agreement of the async combinators -/

theorem insertByTime_append {β : Type} (x : Nat × β) :
    ∀ (acc : List (Nat × β)), (∀ y ∈ acc, y.1 ≤ x.1) →
      insertByTime x acc = acc ++ [x] := by
  intro acc
  induction acc with
  | nil => intro h; rfl
  | cons y ys ih =>
    intro h
    rw [insertByTime, if_pos (h y (by simp))]
    rw [ih (fun z hz => h z (by simp [hz]))]
    rfl

theorem settleSort_fold_const_time {β : Type} :
    ∀ (xs acc : List (Nat × β)),
      (∀ x ∈ xs, x.1 = 0) → (∀ y ∈ acc, y.1 = 0) →
      xs.foldl (fun acc x => insertByTime x acc) acc = acc ++ xs := by
  intro xs
  induction xs with
  | nil => intro acc _ _; simp
  | cons x xs ih =>
    intro acc hxs hacc
    have hx0 : x.1 = 0 := hxs x (by simp)
    have hle : ∀ y ∈ acc, y.1 ≤ x.1 := fun y hy => by rw [hacc y hy, hx0]
    have hacc' : ∀ y ∈ acc ++ [x], y.1 = 0 := by
      intro y hy
      rcases List.mem_append.mp hy with h1 | h1
      · exact hacc y h1
      · rw [List.mem_singleton] at h1
        rw [h1, hx0]
    have hxs' : ∀ z ∈ xs, z.1 = 0 := fun z hz => hxs z (by simp [hz])
    rw [List.foldl_cons, insertByTime_append x acc hle, ih (acc ++ [x]) hxs' hacc',
      List.append_assoc, List.singleton_append]

/-- A batch whose invocations all settle at tick 0 runs its settlement
callbacks in submission order. -/
theorem settleSort_of_const_time {β : Type} (xs : List (Nat × β))
    (h : ∀ x ∈ xs, x.1 = 0) : settleSort xs = xs := by
  have hh := settleSort_fold_const_time xs [] h (by simp)
  simpa [settleSort] using hh

theorem foldl_congr_mem {A B : Type} :
    ∀ (l : List A) (g₁ g₂ : B → A → B) (init : B),
      (∀ (b : B), ∀ a ∈ l, g₁ b a = g₂ b a) →
      l.foldl g₁ init = l.foldl g₂ init := by
  intro l
  induction l with
  | nil => intro g₁ g₂ init h; rfl
  | cons a l ih =>
    intro g₁ g₂ init h
    rw [List.foldl_cons, List.foldl_cons, h init a (by simp)]
    exact ih g₁ g₂ _ (fun b a' ha' => h b a' (by simp [ha']))

/-- C4: when every `filterAsync`/`mapAsync` invocation resolves synchronously
(settles fulfilled at tick 0) with the value of the corresponding synchronous
predicate/transform, the async result holds the same set of entries as the
synchronous counterpart. -/
theorem c4_filterMapAsync_sync_agree {V T : Type} [DecidableEq V] [DecidableEq T]
    (c : Collection V)
    (p : V → K → Collection V → Bool) (fnF : V → K → Collection V → JsPromise Bool)
    (tr : V → K → Collection V → T) (fnM : V → K → Collection V → JsPromise T)
    (hF : ∀ e ∈ c.entries,
      fnF e.2 e.1 c = JsPromise.mk 0 (Settled.fulfilled (p e.2 e.1 c)))
    (hM : ∀ e ∈ c.entries,
      fnM e.2 e.1 c = JsPromise.mk 0 (Settled.fulfilled (tr e.2 e.1 c))) :
    (c.filterAsync fnF).entries.toFinset = (c.filter p).entries.toFinset
      ∧ (c.mapAsync fnM).entries.toFinset = (c.map tr).entries.toFinset := by
  have hfilter : (c.filterAsync fnF).entries = (c.filter p).entries := by
    simp only [Collection.filterAsync, Collection.filter]
    rw [show c.entries.map
          (fun e => ((fnF e.2 e.1 c).time, (e, (fnF e.2 e.1 c).outcome)))
        = c.entries.map (fun e => (0, (e, Settled.fulfilled (p e.2 e.1 c)))) from
      List.map_congr_left (fun e he => by rw [hF e he])]
    rw [settleSort_of_const_time _ (by
      intro x hx
      obtain ⟨e, he, rfl⟩ := List.mem_map.mp hx
      rfl)]
    rw [List.foldl_map]
    apply foldl_congr_mem
    intro es e he
    by_cases hpp : p e.2 e.1 c = true
    · simp [hpp]
    · have hpf : p e.2 e.1 c = false := Bool.eq_false_iff.mpr hpp
      simp [hpf]
  have hmap : (c.mapAsync fnM).entries = (c.map tr).entries := by
    simp only [Collection.mapAsync, Collection.map]
    rw [show c.entries.map
          (fun e => ((fnM e.2 e.1 c).time, (e.1, (fnM e.2 e.1 c).outcome)))
        = c.entries.map (fun e => (0, (e.1, Settled.fulfilled (tr e.2 e.1 c)))) from
      List.map_congr_left (fun e he => by rw [hM e he])]
    rw [settleSort_of_const_time _ (by
      intro x hx
      obtain ⟨e, he, rfl⟩ := List.mem_map.mp hx
      rfl)]
    rw [List.foldl_map]
  exact ⟨by rw [hfilter], by rw [hmap]⟩

/-- Witness predicate for C4. -/
def pW4 : Nat → K → Collection Nat → Bool := fun v _ _ => decide (20 ≤ v)

/-- Witness async predicate for C4: resolves synchronously with `pW4`. -/
def fnFW4 : Nat → K → Collection Nat → JsPromise Bool := fun v k c =>
  JsPromise.mk 0 (Settled.fulfilled (pW4 v k c))

/-- Witness transform for C4. -/
def trW4 : Nat → K → Collection Nat → Nat := fun v _ _ => v + 1

/-- Witness async transform for C4: resolves synchronously with `trW4`. -/
def fnMW4 : Nat → K → Collection Nat → JsPromise Nat := fun v k c =>
  JsPromise.mk 0 (Settled.fulfilled (trW4 v k c))

/-- Witness for C4 on a three-entry collection. -/
theorem c4_witness :
    (Collection.filterAsync cW1 fnFW4).entries.toFinset
        = (Collection.filter cW1 pW4).entries.toFinset
      ∧ (Collection.mapAsync cW1 fnMW4).entries.toFinset
        = (Collection.map cW1 trW4).entries.toFinset :=
  c4_filterMapAsync_sync_agree cW1 pW4 fnFW4 trW4 fnMW4
    (fun e he => rfl) (fun e he => rfl)
